import Mathlib

/-!
Verification of the evaluation-context and resolution-details data model of a
feature-flag SDK, shallowly embedded from the Rust sources
`src/evaluation/context.rs` and `src/provider/details.rs`.

Mutating Rust methods (`add_custom_field`, `merge_missing`) are embedded as
functions returning the updated receiver; `impl Into<...>` bounds are embedded
as explicit conversion functions.  `std::collections::HashMap<String, V>` is
embedded as an association list whose `insert` replaces the binding of an
existing key, together with the extensional equality that `HashMap`'s
`PartialEq` provides.
-/

set_option autoImplicit false

/-- Modelled from the spec: the provided sources do not include the file
defining `EvaluationContextFieldValue`; §3 of the spec describes it as a
closed tagged union over boolean, 64-bit signed integer, 64-bit float,
string, timezone-aware instant, and an opaque shared structure handle.
Float, datetime and struct payloads are represented here by integers (bit
pattern, instant, handle identity); no claim below inspects these payloads,
they are only stored and compared. -/
inductive EvaluationContextFieldValue where
  | Bool (b : Bool)
  | Int (i : Int)
  | Float (bits : Int)
  | String (s : String)
  | DateTime (instant : Int)
  | Struct (handle : Int)
  deriving DecidableEq

/-- Embedding of `std::collections::HashMap<String, V>` as an association
list; the Rust map's key uniqueness is the well-formedness predicate
`HMap.WF` below, preserved by `HMap.insert`. -/
abbrev HMap (V : Type) : Type := List (String × V)

namespace HMap

variable {V : Type}

/-- `HashMap::get`: the value bound to key `k`, if any. -/
def get : HMap V → String → Option V
  | [], _ => none
  | (k', v') :: rest, k => if k' = k then some v' else get rest k

/-- `HashMap::contains_key`. -/
def containsKey : HMap V → String → Bool
  | [], _ => false
  | (k', _) :: rest, k => if k' = k then true else containsKey rest k

/-- `HashMap::insert`: replace the binding of `k` when present, otherwise
add the new binding. -/
def insert : HMap V → String → V → HMap V
  | [], k, v => [(k, v)]
  | (k', v') :: rest, k, v =>
      if k' = k then (k', v) :: rest else (k', v') :: insert rest k v

/-- Number of bindings carrying key `k`; a Rust `HashMap` always has at most
one. -/
def countKey : HMap V → String → Nat
  | [], _ => 0
  | (k', _) :: rest, k => (if k' = k then 1 else 0) + countKey rest k

/-- Key uniqueness, the structural invariant of `HashMap`. -/
def WF (m : HMap V) : Prop := (m.map Prod.fst).Nodup

theorem get_insert_self (m : HMap V) (k : String) (v : V) :
    get (insert m k v) k = some v := by
  induction m with
  | nil => simp [insert, get]
  | cons p rest ih =>
      obtain ⟨k', v'⟩ := p
      by_cases h : k' = k <;> simp [insert, get, h, ih]

theorem get_insert_ne (m : HMap V) (k k' : String) (v : V) (h : k' ≠ k) :
    get (insert m k v) k' = get m k' := by
  have hne : k ≠ k' := Ne.symm h
  induction m with
  | nil => simp [insert, get, hne]
  | cons p rest ih =>
      obtain ⟨k₀, v₀⟩ := p
      by_cases h₀ : k₀ = k
      · subst h₀
        simp [insert, get, hne]
      · by_cases h₁ : k₀ = k' <;> simp [insert, get, h₀, h₁, h, hne, ih]

theorem get_eq_none_of_not_containsKey (m : HMap V) (k : String)
    (h : containsKey m k = false) : get m k = none := by
  induction m with
  | nil => rfl
  | cons p rest ih =>
      obtain ⟨k', v'⟩ := p
      by_cases hk : k' = k
      · simp [containsKey, hk] at h
      · simp only [containsKey, if_neg hk] at h
        simp [get, hk, ih h]

theorem containsKey_eq_isSome (m : HMap V) (k : String) :
    containsKey m k = (get m k).isSome := by
  induction m with
  | nil => simp [containsKey, get]
  | cons p rest ih =>
      obtain ⟨k', v'⟩ := p
      by_cases h : k' = k <;> simp [containsKey, get, h, ih]

theorem countKey_insert (m : HMap V) (k : String) (v : V) :
    countKey (insert m k v) k = max (countKey m k) 1 := by
  induction m with
  | nil => simp [insert, countKey]
  | cons p rest ih =>
      obtain ⟨k', v'⟩ := p
      by_cases h : k' = k <;> simp [insert, countKey, h, ih]

theorem countKey_eq_zero_of_not_mem (m : HMap V) (k : String)
    (h : k ∉ m.map Prod.fst) : countKey m k = 0 := by
  induction m with
  | nil => rfl
  | cons p rest ih =>
      obtain ⟨k', v'⟩ := p
      simp only [List.map_cons, List.mem_cons] at h
      push_neg at h
      simp [countKey, Ne.symm h.1, ih h.2]

theorem countKey_le_one_of_wf (m : HMap V) (k : String) (h : WF m) :
    countKey m k ≤ 1 := by
  induction m with
  | nil => simp [countKey]
  | cons p rest ih =>
      obtain ⟨k', v'⟩ := p
      rw [WF, List.map_cons, List.nodup_cons] at h
      by_cases hk : k' = k
      · subst hk
        simp [countKey, countKey_eq_zero_of_not_mem rest k' h.1]
      · simpa [countKey, hk] using ih h.2

theorem mem_keys_insert (m : HMap V) (k : String) (v : V) (k' : String) :
    k' ∈ (insert m k v).map Prod.fst ↔ k' ∈ m.map Prod.fst ∨ k' = k := by
  induction m with
  | nil => simp [insert]
  | cons p rest ih =>
      obtain ⟨k₀, v₀⟩ := p
      by_cases h : k₀ = k
      · have hins : insert ((k₀, v₀) :: rest) k v = (k₀, v) :: rest := by
          simp [insert, h]
        rw [hins]
        simp only [List.map_cons, List.mem_cons, h]
        tauto
      · simp only [insert, if_neg h, List.map_cons, List.mem_cons, ih]
        tauto

theorem wf_insert (m : HMap V) (k : String) (v : V) (h : WF m) :
    WF (insert m k v) := by
  induction m with
  | nil => simp [insert, WF]
  | cons p rest ih =>
      obtain ⟨k₀, v₀⟩ := p
      rw [WF, List.map_cons, List.nodup_cons] at h
      by_cases hk : k₀ = k
      · subst hk
        rw [WF]
        simpa [insert] using h
      · rw [WF]
        simp only [insert, if_neg hk, List.map_cons, List.nodup_cons]
        refine ⟨?_, ih h.2⟩
        rw [mem_keys_insert]
        push_neg
        exact ⟨h.1, hk⟩

end HMap

/-- `EvaluationContext` from `src/evaluation/context.rs`: the targeting key
that identifies the subject of a flag evaluation, plus the custom fields. -/
structure EvaluationContext where
  targeting_key : Option String
  custom_fields : HMap EvaluationContextFieldValue
  deriving DecidableEq

namespace EvaluationContext

/-- `EvaluationContext::default()` (the derived `Default`): no targeting key
and an empty field mapping. -/
def default : EvaluationContext := { targeting_key := none, custom_fields := [] }

/-- `EvaluationContext::add_custom_field`: add `key` and `value` to the
custom fields; the `&mut self` mutation is embedded as returning the updated
receiver, and the `impl Into<String>` / `impl Into<EvaluationContextFieldValue>`
bounds as explicit conversion functions. -/
def add_custom_field {K W : Type} (intoKey : K → String)
    (intoValue : W → EvaluationContextFieldValue)
    (self : EvaluationContext) (key : K) (value : W) : EvaluationContext :=
  { self with
      custom_fields := HMap.insert self.custom_fields (intoKey key) (intoValue value) }

/-- `EvaluationContext::with_custom_field`: consumes `self`, calls
`add_custom_field`, and returns the updated context. -/
def with_custom_field {K W : Type} (intoKey : K → String)
    (intoValue : W → EvaluationContextFieldValue)
    (self : EvaluationContext) (key : K) (value : W) : EvaluationContext :=
  add_custom_field intoKey intoValue self key value

/-- Body of the closure `merge_missing` runs on each of `other`'s entries:
copy the entry in only when its key is absent from the accumulated fields. -/
def mergeStep (acc : EvaluationContext)
    (kv : String × EvaluationContextFieldValue) : EvaluationContext :=
  if HMap.containsKey acc.custom_fields kv.1 then acc
  else { acc with custom_fields := HMap.insert acc.custom_fields kv.1 kv.2 }

/-- `EvaluationContext::merge_missing`: merge `other` into `self` where the
corresponding field is not set — adopt `other`'s targeting key only when
`self` has none, then iterate over `other`'s custom fields inserting only
the keys `self` does not already contain. -/
def merge_missing (self other : EvaluationContext) : EvaluationContext :=
  let self₁ : EvaluationContext :=
    if self.targeting_key.isNone then
      match other.targeting_key with
      | some targeting_key => { self with targeting_key := some targeting_key }
      | none => self
    else self
  other.custom_fields.foldl mergeStep self₁

/-- Extensional equality of contexts, as decided by the derived `PartialEq`
on `EvaluationContext` (option equality on the targeting key, and `HashMap`
equality — i.e. equality of lookups — on the custom fields). -/
def equiv (c d : EvaluationContext) : Prop :=
  c.targeting_key = d.targeting_key ∧
    ∀ k : String, HMap.get c.custom_fields k = HMap.get d.custom_fields k

theorem eq_of_parts {c d : EvaluationContext}
    (ht : c.targeting_key = d.targeting_key)
    (hf : c.custom_fields = d.custom_fields) : c = d := by
  cases c; cases d; simp_all

end EvaluationContext

namespace HMap

/-- The custom-field part of `merge_missing`, in isolation: fold `other`'s
entries into `self`'s map, inserting only absent keys. -/
def mergeFields (a b : HMap EvaluationContextFieldValue) :
    HMap EvaluationContextFieldValue :=
  b.foldl (fun acc kv => if containsKey acc kv.1 then acc else insert acc kv.1 kv.2) a

theorem get_mergeFields (a b : HMap EvaluationContextFieldValue) (k : String) :
    get (mergeFields a b) k =
      if containsKey a k then get a k else get b k := by
  induction b generalizing a with
  | nil =>
      by_cases h : containsKey a k
      · simp [mergeFields, h]
      · have hnone : get a k = none := by
          rw [containsKey_eq_isSome] at h
          cases hg : get a k
          · rfl
          · rw [hg] at h; simp at h
        simp [mergeFields, h, hnone, get]
  | cons p rest ih =>
      obtain ⟨k₀, v₀⟩ := p
      by_cases h₀ : containsKey a k₀
      · have hstep : mergeFields a ((k₀, v₀) :: rest) = mergeFields a rest := by
          simp [mergeFields, h₀]
        rw [hstep, ih]
        by_cases hk : k₀ = k
        · subst hk
          simp [h₀, get]
        · simp [get, hk]
      · have hstep :
            mergeFields a ((k₀, v₀) :: rest) = mergeFields (insert a k₀ v₀) rest := by
          simp [mergeFields, h₀]
        rw [hstep, ih]
        by_cases hk : k₀ = k
        · subst hk
          have hc : containsKey (insert a k₀ v₀) k₀ = true := by
            rw [containsKey_eq_isSome, get_insert_self]; rfl
          simp [hc, h₀, get_insert_self, get]
        · have hc : containsKey (insert a k₀ v₀) k = containsKey a k := by
            rw [containsKey_eq_isSome, containsKey_eq_isSome,
              get_insert_ne a k₀ k v₀ (fun hh => hk hh.symm)]
          rw [hc, get_insert_ne a k₀ k v₀ (fun hh => hk hh.symm)]
          simp [get, hk]

theorem containsKey_mergeFields (a b : HMap EvaluationContextFieldValue)
    (k : String) :
    containsKey (mergeFields a b) k = (containsKey a k || containsKey b k) := by
  rw [containsKey_eq_isSome, get_mergeFields]
  by_cases h : containsKey a k
  · simp [h, ← containsKey_eq_isSome]
  · simp [h, ← containsKey_eq_isSome]

theorem containsKey_of_mem {a : HMap EvaluationContextFieldValue}
    {kv : String × EvaluationContextFieldValue} (h : kv ∈ a) :
    containsKey a kv.1 = true := by
  induction a with
  | nil => cases h
  | cons p rest ih =>
      rcases List.mem_cons.1 h with h' | h'
      · subst h'; simp [containsKey]
      · obtain ⟨k₀, v₀⟩ := p
        by_cases hk : k₀ = kv.1 <;> simp [containsKey, hk, ih h']

theorem mergeFields_eq_self (a b : HMap EvaluationContextFieldValue)
    (h : ∀ kv ∈ b, containsKey a kv.1 = true) : mergeFields a b = a := by
  induction b with
  | nil => rfl
  | cons p rest ih =>
      have hp : containsKey a p.1 = true := h p (List.mem_cons_self p rest)
      have hstep : mergeFields a (p :: rest) = mergeFields a rest := by
        simp [mergeFields, hp]
      rw [hstep]
      exact ih fun kv hkv => h kv (List.mem_cons_of_mem p hkv)

end HMap

namespace EvaluationContext

theorem mergeStep_targeting_key (c : EvaluationContext)
    (kv : String × EvaluationContextFieldValue) :
    (mergeStep c kv).targeting_key = c.targeting_key := by
  by_cases h : HMap.containsKey c.custom_fields kv.1 <;> simp [mergeStep, h]

theorem mergeStep_custom_fields (c : EvaluationContext)
    (kv : String × EvaluationContextFieldValue) :
    (mergeStep c kv).custom_fields =
      (if HMap.containsKey c.custom_fields kv.1 then c.custom_fields
       else HMap.insert c.custom_fields kv.1 kv.2) := by
  by_cases h : HMap.containsKey c.custom_fields kv.1 <;> simp [mergeStep, h]

theorem foldl_mergeStep_targeting_key
    (l : List (String × EvaluationContextFieldValue)) (c : EvaluationContext) :
    (l.foldl mergeStep c).targeting_key = c.targeting_key := by
  induction l generalizing c with
  | nil => rfl
  | cons p rest ih => rw [List.foldl_cons, ih, mergeStep_targeting_key]

theorem foldl_mergeStep_custom_fields
    (l : List (String × EvaluationContextFieldValue)) (c : EvaluationContext) :
    (l.foldl mergeStep c).custom_fields = HMap.mergeFields c.custom_fields l := by
  induction l generalizing c with
  | nil => rfl
  | cons p rest ih =>
      rw [List.foldl_cons, ih]
      have hstep :
          HMap.mergeFields c.custom_fields (p :: rest) =
            HMap.mergeFields (mergeStep c p).custom_fields rest := by
        rw [mergeStep_custom_fields]
        by_cases h : HMap.containsKey c.custom_fields p.1 <;>
          simp [HMap.mergeFields, h]
      rw [hstep]

theorem merge_missing_targeting_key (A B : EvaluationContext) :
    (merge_missing A B).targeting_key =
      (if A.targeting_key.isSome then A.targeting_key else B.targeting_key) := by
  rw [merge_missing, foldl_mergeStep_targeting_key]
  cases hA : A.targeting_key with
  | none => cases hB : B.targeting_key <;> simp [hA, hB]
  | some tk => simp [hA]

theorem merge_missing_custom_fields (A B : EvaluationContext) :
    (merge_missing A B).custom_fields =
      HMap.mergeFields A.custom_fields B.custom_fields := by
  rw [merge_missing, foldl_mergeStep_custom_fields]
  cases hA : A.targeting_key with
  | none => cases hB : B.targeting_key <;> simp [hA, hB]
  | some tk => simp [hA]

end EvaluationContext

/-- Modelled from the spec: `EvaluationReason` is defined outside the
provided sources; §6 describes it as an enumeration of semantic reason codes
with an allowance for provider-specific extension values. -/
inductive EvaluationReason where
  | Static
  | Default
  | TargetingMatch
  | Split
  | Cached
  | Disabled
  | Unknown
  | Error
  | Other (s : String)
  deriving DecidableEq

/-- Modelled from the spec: `FlagMetadata` is defined outside the provided
sources; §6 describes it as an opaque, provider-defined key/value metadata
bag, consumed only as an opaque optional field. -/
abbrev FlagMetadata : Type := List (String × String)

/-- `ResolutionDetails<T>` from `src/provider/details.rs`: the resolved flag
value plus optional variant identifier, reason code and flag metadata. -/
structure ResolutionDetails (T : Type) where
  value : T
  variant : Option String
  reason : Option EvaluationReason
  flag_metadata : Option FlagMetadata

/-- `impl<T: Default> Default for ResolutionDetails<T>`; Rust's `Default`
bound on `T` is embedded as `Inhabited`. -/
def ResolutionDetails.default (T : Type) [Inhabited T] : ResolutionDetails T :=
  { value := (Inhabited.default : T)
    variant := none
    reason := none
    flag_metadata := none }

/-- `ResolutionDetails::new`: create an instance given a value; the
`V: Into<T>` bound is embedded as an explicit conversion function. -/
def ResolutionDetails.new {T V : Type} (into : V → T) (value : V) :
    ResolutionDetails T :=
  { value := into value
    variant := none
    reason := none
    flag_metadata := none }

/-- The two-context state on which `merge_missing(&mut self, other: &Self)`
operates: the mutable receiver and the borrowed argument. -/
structure MergeState where
  selfCtx : EvaluationContext
  otherCtx : EvaluationContext

/-- One iteration of `merge_missing`'s loop as a state transformer: the
conditional insert writes only the `selfCtx` component. -/
def MergeState.step (t : MergeState)
    (kv : String × EvaluationContextFieldValue) : MergeState :=
  if HMap.containsKey t.selfCtx.custom_fields kv.1 then t
  else { t with
          selfCtx := { t.selfCtx with
            custom_fields := HMap.insert t.selfCtx.custom_fields kv.1 kv.2 } }

/-- The body of `merge_missing` as a transformer of the two-context state:
the targeting-key assignment followed by the per-entry conditional inserts;
every write targets the `selfCtx` component, `otherCtx` is only read. -/
def MergeState.run (s : MergeState) : MergeState :=
  let s₁ : MergeState :=
    if s.selfCtx.targeting_key.isNone then
      match s.otherCtx.targeting_key with
      | some targeting_key =>
          { s with selfCtx := { s.selfCtx with targeting_key := some targeting_key } }
      | none => s
    else s
  s₁.otherCtx.custom_fields.foldl MergeState.step s₁

theorem MergeState.step_otherCtx (t : MergeState)
    (kv : String × EvaluationContextFieldValue) :
    (MergeState.step t kv).otherCtx = t.otherCtx := by
  by_cases h : HMap.containsKey t.selfCtx.custom_fields kv.1 <;>
    simp [MergeState.step, h]

theorem MergeState.step_selfCtx (t : MergeState)
    (kv : String × EvaluationContextFieldValue) :
    (MergeState.step t kv).selfCtx = EvaluationContext.mergeStep t.selfCtx kv := by
  by_cases h : HMap.containsKey t.selfCtx.custom_fields kv.1 <;>
    simp [MergeState.step, EvaluationContext.mergeStep, h]

theorem MergeState.foldl_step_otherCtx
    (l : List (String × EvaluationContextFieldValue)) (t : MergeState) :
    (l.foldl MergeState.step t).otherCtx = t.otherCtx := by
  induction l generalizing t with
  | nil => rfl
  | cons p rest ih => rw [List.foldl_cons, ih, MergeState.step_otherCtx]

theorem MergeState.foldl_step_selfCtx
    (l : List (String × EvaluationContextFieldValue)) (t : MergeState) :
    (l.foldl MergeState.step t).selfCtx =
      l.foldl EvaluationContext.mergeStep t.selfCtx := by
  induction l generalizing t with
  | nil => rfl
  | cons p rest ih => rw [List.foldl_cons, ih, List.foldl_cons, MergeState.step_selfCtx]

theorem MergeState.run_otherCtx (s : MergeState) :
    (MergeState.run s).otherCtx = s.otherCtx := by
  obtain ⟨A, B⟩ := s
  by_cases hA : A.targeting_key.isNone
  · cases hB : B.targeting_key <;>
      simp [MergeState.run, hA, hB, MergeState.foldl_step_otherCtx]
  · simp [MergeState.run, hA, MergeState.foldl_step_otherCtx]

theorem MergeState.run_selfCtx (s : MergeState) :
    (MergeState.run s).selfCtx =
      EvaluationContext.merge_missing s.selfCtx s.otherCtx := by
  obtain ⟨A, B⟩ := s
  by_cases hA : A.targeting_key.isNone
  · cases hB : B.targeting_key <;>
      simp [MergeState.run, EvaluationContext.merge_missing, hA, hB,
        MergeState.foldl_step_selfCtx]
  · simp [MergeState.run, EvaluationContext.merge_missing, hA,
      MergeState.foldl_step_selfCtx]

/-- The spec's description of field insertion (§4.2): "insert-or-replace a
field", with the fluent form returning a new logically-updated context.
Stated directly on the map, independently of how the source routes
`with_custom_field` through `add_custom_field`. -/
def EvaluationContext.with_custom_field_spec (c : EvaluationContext)
    (key : String) (value : EvaluationContextFieldValue) : EvaluationContext :=
  { c with custom_fields := HMap.insert c.custom_fields key value }

/-- Claim C1: after `self.merge_missing(other)` the targeting key equals
`self`'s original one when it was set and otherwise `other`'s, and every
custom-field key maps to `self`'s original value when the key was present in
`self`, otherwise to `other`'s value when present in `other`, and is absent
otherwise — present keys are never changed and no key is ever removed. -/
theorem merge_missing_precedence (A B : EvaluationContext) (k : String) :
    (EvaluationContext.merge_missing A B).targeting_key =
      (if A.targeting_key.isSome then A.targeting_key else B.targeting_key) ∧
    HMap.get (EvaluationContext.merge_missing A B).custom_fields k =
      (if HMap.containsKey A.custom_fields k then HMap.get A.custom_fields k
       else if HMap.containsKey B.custom_fields k then HMap.get B.custom_fields k
       else none) := by
  refine ⟨EvaluationContext.merge_missing_targeting_key A B, ?_⟩
  rw [EvaluationContext.merge_missing_custom_fields, HMap.get_mergeFields]
  by_cases hA : HMap.containsKey A.custom_fields k
  · simp [hA]
  · by_cases hB : HMap.containsKey B.custom_fields k
    · simp [hA, hB]
    · simp only [Bool.not_eq_true] at hA hB
      simp [hA, hB, HMap.get_eq_none_of_not_containsKey B.custom_fields k hB]

/-- Claim C2: inserting the same key twice with different values, through
`add_custom_field` or through `with_custom_field`, leaves exactly one entry
under that key in `custom_fields`, holding the value of the latest
insertion. -/
theorem custom_field_insert_unique {K W : Type} (intoKey : K → String)
    (intoValue : W → EvaluationContextFieldValue) (c : EvaluationContext)
    (k : K) (v₁ v₂ : W) (h : HMap.WF c.custom_fields) :
    HMap.countKey
        (EvaluationContext.add_custom_field intoKey intoValue
          (EvaluationContext.add_custom_field intoKey intoValue c k v₁) k
          v₂).custom_fields (intoKey k) = 1 ∧
    HMap.get
        (EvaluationContext.add_custom_field intoKey intoValue
          (EvaluationContext.add_custom_field intoKey intoValue c k v₁) k
          v₂).custom_fields (intoKey k) = some (intoValue v₂) ∧
    HMap.countKey
        (EvaluationContext.with_custom_field intoKey intoValue
          (EvaluationContext.with_custom_field intoKey intoValue c k v₁) k
          v₂).custom_fields (intoKey k) = 1 ∧
    HMap.get
        (EvaluationContext.with_custom_field intoKey intoValue
          (EvaluationContext.with_custom_field intoKey intoValue c k v₁) k
          v₂).custom_fields (intoKey k) = some (intoValue v₂) := by
  have hcount :
      HMap.countKey
        (HMap.insert (HMap.insert c.custom_fields (intoKey k) (intoValue v₁))
          (intoKey k) (intoValue v₂)) (intoKey k) = 1 := by
    rw [HMap.countKey_insert, HMap.countKey_insert]
    have := HMap.countKey_le_one_of_wf c.custom_fields (intoKey k) h
    omega
  have hget :
      HMap.get
        (HMap.insert (HMap.insert c.custom_fields (intoKey k) (intoValue v₁))
          (intoKey k) (intoValue v₂)) (intoKey k) = some (intoValue v₂) :=
    HMap.get_insert_self _ _ _
  exact ⟨hcount, hget, hcount, hget⟩

/-- Witness for claim C2 at a concrete context, key and values. -/
theorem custom_field_insert_unique_witness :
    HMap.WF (EvaluationContext.default).custom_fields ∧
    (HMap.countKey
        (EvaluationContext.add_custom_field (fun s : String => s)
          (fun w : EvaluationContextFieldValue => w)
          (EvaluationContext.add_custom_field (fun s : String => s)
            (fun w : EvaluationContextFieldValue => w)
            EvaluationContext.default "k" (.String "a")) "k"
          (.String "b")).custom_fields "k" = 1 ∧
      HMap.get
        (EvaluationContext.add_custom_field (fun s : String => s)
          (fun w : EvaluationContextFieldValue => w)
          (EvaluationContext.add_custom_field (fun s : String => s)
            (fun w : EvaluationContextFieldValue => w)
            EvaluationContext.default "k" (.String "a")) "k"
          (.String "b")).custom_fields "k" = some (.String "b") ∧
      HMap.countKey
        (EvaluationContext.with_custom_field (fun s : String => s)
          (fun w : EvaluationContextFieldValue => w)
          (EvaluationContext.with_custom_field (fun s : String => s)
            (fun w : EvaluationContextFieldValue => w)
            EvaluationContext.default "k" (.String "a")) "k"
          (.String "b")).custom_fields "k" = 1 ∧
      HMap.get
        (EvaluationContext.with_custom_field (fun s : String => s)
          (fun w : EvaluationContextFieldValue => w)
          (EvaluationContext.with_custom_field (fun s : String => s)
            (fun w : EvaluationContextFieldValue => w)
            EvaluationContext.default "k" (.String "a")) "k"
          (.String "b")).custom_fields "k" = some (.String "b")) :=
  ⟨List.nodup_nil,
    custom_field_insert_unique (fun s : String => s)
      (fun w : EvaluationContextFieldValue => w) EvaluationContext.default
      "k" (.String "a") (.String "b") List.nodup_nil⟩

/-- Claim C3: `ResolutionDetails::new(v)` yields an envelope whose value is
the `Into` conversion of `v` and whose variant, reason and flag metadata are
all `None`. -/
theorem resolution_details_new_fields {T V : Type} (into : V → T) (v : V) :
    (ResolutionDetails.new into v).value = into v ∧
    (ResolutionDetails.new into v).variant = none ∧
    (ResolutionDetails.new into v).reason = none ∧
    (ResolutionDetails.new into v).flag_metadata = none :=
  ⟨rfl, rfl, rfl, rfl⟩

/-- Claim C4: for every type with a default value,
`ResolutionDetails::<T>::default()` yields that default as the value and
`None` for variant, reason and flag metadata. -/
theorem resolution_details_default_fields (T : Type) [Inhabited T] :
    (ResolutionDetails.default T).value = (Inhabited.default : T) ∧
    (ResolutionDetails.default T).variant = none ∧
    (ResolutionDetails.default T).reason = none ∧
    (ResolutionDetails.default T).flag_metadata = none :=
  ⟨rfl, rfl, rfl, rfl⟩

/-- Claim C5: merging the same `other` twice equals merging it once —
`(A.merge_missing(B)).merge_missing(B) = A.merge_missing(B)`. -/
theorem merge_missing_idempotent (A B : EvaluationContext) :
    EvaluationContext.merge_missing (EvaluationContext.merge_missing A B) B =
      EvaluationContext.merge_missing A B := by
  apply EvaluationContext.eq_of_parts
  · rw [EvaluationContext.merge_missing_targeting_key,
      EvaluationContext.merge_missing_targeting_key]
    cases hA : A.targeting_key <;> cases hB : B.targeting_key <;> simp
  · rw [EvaluationContext.merge_missing_custom_fields,
      EvaluationContext.merge_missing_custom_fields]
    apply HMap.mergeFields_eq_self
    intro kv hkv
    rw [HMap.containsKey_mergeFields, HMap.containsKey_of_mem hkv]
    simp

/-- Claim C6: when `A` and `B` both bind a common key to different values,
`A.merge_missing(B)` and `B.merge_missing(A)` differ (they are not even
extensionally equal in the sense of the derived `PartialEq`). -/
theorem merge_missing_not_commutative (A B : EvaluationContext) (k : String)
    (v₁ v₂ : EvaluationContextFieldValue)
    (h₁ : HMap.get A.custom_fields k = some v₁)
    (h₂ : HMap.get B.custom_fields k = some v₂)
    (hne : v₁ ≠ v₂) :
    ¬ EvaluationContext.equiv (EvaluationContext.merge_missing A B)
        (EvaluationContext.merge_missing B A) := by
  intro heq
  have hk := heq.2 k
  have hcA : HMap.containsKey A.custom_fields k = true := by
    rw [HMap.containsKey_eq_isSome, h₁]; rfl
  have hcB : HMap.containsKey B.custom_fields k = true := by
    rw [HMap.containsKey_eq_isSome, h₂]; rfl
  rw [EvaluationContext.merge_missing_custom_fields,
    EvaluationContext.merge_missing_custom_fields, HMap.get_mergeFields,
    HMap.get_mergeFields, if_pos hcA, if_pos hcB, h₁, h₂] at hk
  exact hne (Option.some.inj hk)

/-- Witness for claim C6 at concrete contexts binding key "x" to the
distinct strings "1" and "2". -/
theorem merge_missing_not_commutative_witness :
    ¬ EvaluationContext.equiv
        (EvaluationContext.merge_missing
          ⟨none, [("x", .String "1")]⟩ ⟨none, [("x", .String "2")]⟩)
        (EvaluationContext.merge_missing
          ⟨none, [("x", .String "2")]⟩ ⟨none, [("x", .String "1")]⟩) :=
  merge_missing_not_commutative ⟨none, [("x", .String "1")]⟩
    ⟨none, [("x", .String "2")]⟩ "x" (.String "1") (.String "2")
    (by decide) (by decide) (by decide)

/-- Claim C7: merging the default-constructed empty context into `A` is a
no-op — `A.merge_missing(empty) = A`. -/
theorem merge_missing_empty_noop (A : EvaluationContext) :
    EvaluationContext.merge_missing A EvaluationContext.default = A := by
  apply EvaluationContext.eq_of_parts
  · rw [EvaluationContext.merge_missing_targeting_key]
    cases hA : A.targeting_key <;> simp [EvaluationContext.default]
  · rw [EvaluationContext.merge_missing_custom_fields]
    rfl

/-- Claim C8: the context operations are total functions — they are defined
on every input (all embeddings below are structurally recursive total
functions), insertion always succeeds and binds the key, and merging only
ever adds entries: the merged key set is exactly the union of the two key
sets, so nothing is removed, and an entry already present in `self` keeps
its value. -/
theorem context_operations_total {K W : Type} (intoKey : K → String)
    (intoValue : W → EvaluationContextFieldValue) (c A B : EvaluationContext)
    (key : K) (value : W) (k : String) :
    HMap.get (EvaluationContext.add_custom_field intoKey intoValue c key
        value).custom_fields (intoKey key) = some (intoValue value) ∧
    HMap.get (EvaluationContext.with_custom_field intoKey intoValue c key
        value).custom_fields (intoKey key) = some (intoValue value) ∧
    HMap.containsKey (EvaluationContext.merge_missing A B).custom_fields k =
      (HMap.containsKey A.custom_fields k ||
        HMap.containsKey B.custom_fields k) ∧
    (HMap.containsKey A.custom_fields k = true →
      HMap.get (EvaluationContext.merge_missing A B).custom_fields k =
        HMap.get A.custom_fields k) := by
  refine ⟨HMap.get_insert_self _ _ _, HMap.get_insert_self _ _ _, ?_, ?_⟩
  · rw [EvaluationContext.merge_missing_custom_fields,
      HMap.containsKey_mergeFields]
  · intro hA
    rw [EvaluationContext.merge_missing_custom_fields, HMap.get_mergeFields,
      if_pos hA]

/-- Witness for claim C8 at a concrete context, key, value and merge pair. -/
theorem context_operations_total_witness :
    HMap.get (EvaluationContext.add_custom_field (fun s : String => s)
        (fun w : EvaluationContextFieldValue => w) EvaluationContext.default
        "x" (.Int 1)).custom_fields "x" = some (.Int 1) ∧
    HMap.get (EvaluationContext.with_custom_field (fun s : String => s)
        (fun w : EvaluationContextFieldValue => w) EvaluationContext.default
        "x" (.Int 1)).custom_fields "x" = some (.Int 1) ∧
    HMap.containsKey
      (EvaluationContext.merge_missing ⟨none, [("x", .Int 1)]⟩
        ⟨none, [("y", .Int 2)]⟩).custom_fields "x" =
      (HMap.containsKey ([("x", .Int 1)] : HMap EvaluationContextFieldValue)
        "x" ||
       HMap.containsKey ([("y", .Int 2)] : HMap EvaluationContextFieldValue)
        "x") ∧
    (HMap.containsKey ([("x", .Int 1)] : HMap EvaluationContextFieldValue)
        "x" = true →
      HMap.get (EvaluationContext.merge_missing ⟨none, [("x", .Int 1)]⟩
          ⟨none, [("y", .Int 2)]⟩).custom_fields "x" =
        HMap.get ([("x", .Int 1)] : HMap EvaluationContextFieldValue) "x") :=
  context_operations_total (fun s : String => s)
    (fun w : EvaluationContextFieldValue => w) EvaluationContext.default
    ⟨none, [("x", .Int 1)]⟩ ⟨none, [("y", .Int 2)]⟩ "x" (.Int 1) "x"

/-- Claim C9: the fluent `with_custom_field` returns exactly the context
that `add_custom_field` produces by mutating in place, and both perform the
insert-or-replace update the spec describes. -/
theorem with_custom_field_refines_add {K W : Type} (intoKey : K → String)
    (intoValue : W → EvaluationContextFieldValue) (c : EvaluationContext)
    (key : K) (value : W) :
    EvaluationContext.with_custom_field intoKey intoValue c key value =
      EvaluationContext.add_custom_field intoKey intoValue c key value ∧
    EvaluationContext.with_custom_field intoKey intoValue c key value =
      EvaluationContext.with_custom_field_spec c (intoKey key)
        (intoValue value) :=
  ⟨rfl, rfl⟩

/-- Claim C10: `merge_missing` run on the two-context state leaves the
borrowed argument completely unchanged — only the receiver component is
modified, and it becomes exactly `merge_missing` of the two contexts. -/
theorem merge_missing_frame_on_other (s : MergeState) :
    (MergeState.run s).otherCtx = s.otherCtx ∧
    (MergeState.run s).selfCtx =
      EvaluationContext.merge_missing s.selfCtx s.otherCtx :=
  ⟨MergeState.run_otherCtx s, MergeState.run_selfCtx s⟩
